import Mathlib

/-
Shallow embedding of the um-32 virtual machine (src/machine.rs, src/main.rs).

Modelling conventions:
- Rust u32 values are Nat; wrapping arithmetic carries an explicit % 2 ^ 32.
- The register file [u32; 8] is a List Nat of length 8 (reads use getD with
  default 0; field extraction masks with % 8 keep every index below 8, as the
  3-bit fields do in the Rust code).
- Vec push/pop on free_arrays (a LIFO stack in the Rust code) is modelled with
  the top of the stack at the head of the list.
- External byte streams: stdin is a list of pending bytes (empty list means the
  source signals end of input, so read_exact fails with an UnexpectedEof
  error); stdout is a list of bytes written so far (writes always succeed).
- The pre-seeded input VecDeque of chars is a list of code points.
- Fallible Rust paths return errors; a Rust panic (slice index out of range,
  indexed assignment out of range) is the separate failure value panicFail.
- The DEBUG and INSTRUMENT blocks of Machine::run are compiled out in the
  source (both consts are false), so they and the inst statistics field are
  omitted.
-/

/-- Error type of src/main.rs. The Rust variant Error::IO holds only a
std::io::Error and no program counter; it is modelled by IOFailure holding the
io error kind that the core can actually produce. -/
inductive IOErrorKind where
  | UnexpectedEof
  deriving DecidableEq, Repr

inductive Error where
  | DivisionByZero (pc : Nat)
  | IOFailure (k : IOErrorKind)
  | InfiniteLoop (pc : Nat)
  | InactiveArray (pc : Nat) (array : Nat)
  | InvalidChar (pc : Nat) (ch : Nat)
  | InvalidOp (pc : Nat) (op : Nat)
  | MissingFile
  | OutOfBounds (pc : Nat) (array : Nat) (offset : Nat) (len : Nat)
  deriving DecidableEq, Repr

/-- A failing outcome: an Error return, or a Rust panic. -/
inductive Failure where
  | err (e : Error)
  | panicFail
  deriving DecidableEq, Repr

/-- The pc field carried by each Error variant, if any. -/
def errorPC : Error → Option Nat
  | .DivisionByZero pc => some pc
  | .IOFailure _ => none
  | .InfiniteLoop pc => some pc
  | .InactiveArray pc _ => some pc
  | .InvalidChar pc _ => some pc
  | .InvalidOp pc _ => some pc
  | .MissingFile => none
  | .OutOfBounds pc _ _ _ => some pc

/-- State of struct Machine, plus the two console streams that run locks. -/
structure Machine where
  pc : Nat
  registers : List Nat
  arrays : List (Option (List Nat))
  free_arrays : List (Nat × List Nat)
  input : List Nat
  stdin : List Nat
  output : List Nat
  deriving DecidableEq, Repr

/-- Machine::read_value. -/
def read_value (m : Machine) (array offset : Nat) : Except Error Nat :=
  match m.arrays[array]? with
  | some (some a) =>
    match a[offset]? with
    | some v => .ok v
    | none => .error (.OutOfBounds m.pc array offset a.length)
  | _ => .error (.InactiveArray m.pc array)

/-- Machine::write_value. -/
def write_value (m : Machine) (array offset val : Nat) : Except Error Machine :=
  match m.arrays[array]? with
  | some (some a) =>
    if offset < a.length then
      .ok { m with arrays := m.arrays.set array (some (a.set offset val)) }
    else
      .error (.OutOfBounds m.pc array offset a.length)
  | _ => .error (.InactiveArray m.pc array)

/-- Machine::read_reg. The index is always below 8 at every call site. -/
def read_reg (m : Machine) (reg : Nat) : Nat := m.registers.getD reg 0

/-- Machine::write_reg. -/
def write_reg (m : Machine) (reg val : Nat) : Machine :=
  { m with registers := m.registers.set reg val }

/-- The pc increment at the end of most dispatch arms (u32 wrapping add). -/
def incPC (m : Machine) : Machine := { m with pc := (m.pc + 1) % 2 ^ 32 }

/-- Vec::resize(cap, 0): truncate or extend with zeros to length cap. -/
def vecResize (v : List Nat) (cap : Nat) : List Nat :=
  v.take cap ++ List.replicate (cap - v.length) 0

/-- Vec::fill(0): overwrite every element with 0. -/
def vecFill (v : List Nat) : List Nat := List.replicate v.length 0

/-- Outcome of one iteration of the dispatch loop in Machine::run. -/
inductive StepResult where
  | cont (m : Machine)
  | halted (m : Machine)
  | fail (f : Failure)
  deriving DecidableEq, Repr

/-- One iteration of the loop in Machine::run: fetch the platter at
(array 0, pc), decode, execute one instruction. -/
def step (m : Machine) : StepResult :=
  match read_value m 0 m.pc with
  | .error e => .fail (.err e)
  | .ok inst =>
    let op := inst >>> 28
    let a := if op < 13 then (inst >>> 6) % 8 else (inst >>> 25) % 8
    let b := if op < 13 then (inst >>> 3) % 8 else inst % 2 ^ 25
    let c := if op < 13 then inst % 8 else 0
    match op with
    | 0 =>
      let val := if read_reg m c ≠ 0 then read_reg m b else read_reg m a
      .cont (incPC (write_reg m a val))
    | 1 =>
      match read_value m (read_reg m b) (read_reg m c) with
      | .ok val => .cont (incPC (write_reg m a val))
      | .error e => .fail (.err e)
    | 2 =>
      match write_value m (read_reg m a) (read_reg m b) (read_reg m c) with
      | .ok m2 => .cont (incPC m2)
      | .error e => .fail (.err e)
    | 3 => .cont (incPC (write_reg m a ((read_reg m b + read_reg m c) % 2 ^ 32)))
    | 4 => .cont (incPC (write_reg m a ((read_reg m b * read_reg m c) % 2 ^ 32)))
    | 5 =>
      let divisor := read_reg m c
      if divisor = 0 then .fail (.err (.DivisionByZero m.pc))
      else .cont (incPC (write_reg m a (read_reg m b / divisor)))
    | 6 =>
      .cont (incPC (write_reg m a ((read_reg m b &&& read_reg m c) ^^^ (2 ^ 32 - 1))))
    | 7 => .halted m
    | 8 =>
      let cap := read_reg m c
      match m.free_arrays with
      | (idx, mem) :: rest =>
        let mem2 := vecFill (vecResize mem cap)
        if idx < m.arrays.length then
          .cont (incPC (write_reg
            { m with arrays := m.arrays.set idx (some mem2), free_arrays := rest } b idx))
        else .fail .panicFail
      | [] =>
        .cont (incPC (write_reg
          { m with arrays := m.arrays ++ [some (List.replicate cap 0)] } b m.arrays.length))
    | 9 =>
      let array := read_reg m c
      match m.arrays[array]? with
      | some (some mem) =>
        .cont (incPC { m with
          arrays := m.arrays.set array none,
          free_arrays := (array, mem) :: m.free_arrays })
      | _ => .fail (.err (.InactiveArray m.pc array))
    | 10 =>
      let ch := read_reg m c
      if ch > 255 then .fail (.err (.InvalidChar m.pc ch))
      else .cont (incPC { m with output := m.output ++ [ch] })
    | 11 =>
      match m.input with
      | ch :: rest =>
        .cont (incPC (write_reg { m with input := rest, output := m.output ++ [ch % 256] } c ch))
      | [] =>
        match m.stdin with
        | [] => .fail (.err (.IOFailure .UnexpectedEof))
        | byt :: rest =>
          .cont (incPC (write_reg { m with stdin := rest, output := m.output ++ [byt] } c byt))
    | 12 =>
      let array := read_reg m b
      if array = 0 ∧ read_reg m c = m.pc then .fail (.err (.InfiniteLoop m.pc))
      else if array ≠ 0 then
        match m.arrays[array]? with
        | some (some a2) =>
          if 0 < m.arrays.length then
            .cont { m with arrays := m.arrays.set 0 (some a2), pc := read_reg m c }
          else .fail .panicFail
        | _ => .fail (.err (.InactiveArray m.pc array))
      else .cont { m with pc := read_reg m c }
    | 13 => .cont (incPC (write_reg m a b))
    | _ => .fail (.err (.InvalidOp m.pc op))

/-- Result of Machine::run, with explicit fuel for the unbounded loop. -/
inductive RunResult where
  | ok (m : Machine)
  | fail (f : Failure)
  | timeout (m : Machine)
  deriving DecidableEq, Repr

/-- Machine::run as iterated step with fuel. -/
def run : Nat → Machine → RunResult
  | 0, m => .timeout m
  | fuel + 1, m =>
    match step m with
    | .cont m2 => run fuel m2
    | .halted m2 => .ok m2
    | .fail f => .fail f

/-- slice::chunks(4): consecutive groups of 4 elements, the last group possibly
shorter. -/
def chunks4 : List Nat → List (List Nat)
  | [] => []
  | b0 :: b1 :: b2 :: b3 :: rest => [b0, b1, b2, b3] :: chunks4 rest
  | l => [l]

/-- u32::from_be_bytes([b[0], b[1], b[2], b[3]]): big-endian word assembly.
Slice indexing beyond the chunk length is a panic, modelled as none. -/
def fromBeBytes (b : List Nat) : Option Nat :=
  match b[0]?, b[1]?, b[2]?, b[3]? with
  | some b0, some b1, some b2, some b3 =>
    some (b0 * 2 ^ 24 + b1 * 2 ^ 16 + b2 * 2 ^ 8 + b3)
  | _, _, _, _ => none

/-- The map-collect over the chunks in Machine::extend_from; a panic in any
conversion aborts the whole collect. -/
def collectWords : List (List Nat) → Option (List Nat)
  | [] => some []
  | ch :: rest =>
    match fromBeBytes ch, collectWords rest with
    | some w, some ws => some (w :: ws)
    | _, _ => none

/-- Machine::extend_from, with the input byte stream already read to a list. -/
def extend_from (m : Machine) (bytes : List Nat) : Except Failure Machine :=
  match collectWords (chunks4 bytes) with
  | none => .error .panicFail
  | some ws =>
    match m.arrays[0]? with
    | some (some a) => .ok { m with arrays := m.arrays.set 0 (some (a ++ ws)) }
    | _ => .error (.err (.InactiveArray m.pc 0))

/-- Whether id currently refers to an active array. -/
def activeAt (m : Machine) (id : Nat) : Bool :=
  match m.arrays[id]? with
  | some (some _) => true
  | _ => false

/-- Machine states reachable by the core: Machine::default followed by
extend_from of the program image and optional add_input seeding, then any
number of successful dispatch steps. -/
inductive Reachable : Machine → Prop
  | start (prog inp ins : List Nat) :
      Reachable { pc := 0, registers := List.replicate 8 0, arrays := [some prog],
                  free_arrays := [], input := inp, stdin := ins, output := [] }
  | next (m m2 : Machine) : Reachable m → step m = .cont m2 → Reachable m2

def mC1 : Machine :=
  { pc := 0, registers := List.replicate 8 0, arrays := [some [0xB0000000]],
    free_arrays := [], input := [], stdin := [], output := [] }

def mC2 : Machine :=
  { pc := 0, registers := List.replicate 8 0, arrays := [some [0x90000000]],
    free_arrays := [], input := [], stdin := [], output := [] }

def mC2after : Machine :=
  { pc := 1, registers := List.replicate 8 0, arrays := [none],
    free_arrays := [(0, [0x90000000])], input := [], stdin := [], output := [] }

def mC4 : Machine :=
  { pc := 0, registers := List.replicate 8 0, arrays := [some [0xC0000000]],
    free_arrays := [], input := [], stdin := [], output := [] }

def mC6 : Machine :=
  { pc := 0, registers := List.replicate 8 0, arrays := [some [0xB0000000]],
    free_arrays := [], input := [], stdin := [], output := [] }

def mC8 : Machine :=
  { pc := 0, registers := List.replicate 8 0, arrays := [some []],
    free_arrays := [], input := [], stdin := [], output := [] }

def mC2next : Machine :=
  { pc := 1, registers := List.replicate 8 0, arrays := [none],
    free_arrays := [(0, [0x90000000])], input := [], stdin := [], output := [] }

def mW4 : Machine :=
  { pc := 0, registers := [0, 3, 0, 0, 0, 0, 0, 0], arrays := [some [0xC0000001]],
    free_arrays := [], input := [], stdin := [], output := [] }

def mW5 : Machine :=
  { pc := 0, registers := [0, 1, 5, 0, 0, 0, 0, 0], arrays := [some [0xC000000A], some [7, 8]],
    free_arrays := [], input := [], stdin := [], output := [] }

def mW7 : Machine :=
  { pc := 0, registers := [2, 0, 0, 0, 0, 0, 0, 0], arrays := [some [0x80000008], none],
    free_arrays := [(1, [9, 9, 9])], input := [], stdin := [], output := [] }

def mW7next : Machine :=
  { pc := 1, registers := [2, 1, 0, 0, 0, 0, 0, 0], arrays := [some [0x80000008], some [0, 0]],
    free_arrays := [], input := [], stdin := [], output := [] }

def mW10 : Machine :=
  { pc := 0, registers := [0, 0, 0, 0, 0, 0, 0, 5], arrays := [some [0x90000007]],
    free_arrays := [], input := [], stdin := [], output := [] }

/-- The words appended to array 0 by extend_from for a given byte input. -/
def loadedWords (bytes : List Nat) : List Nat :=
  (collectWords (chunks4 bytes)).getD []

def mW9 : Machine :=
  { pc := 0, registers := List.replicate 8 0, arrays := [some [99]],
    free_arrays := [], input := [], stdin := [], output := [] }

def mW6 : Machine :=
  { pc := 0, registers := List.replicate 8 0, arrays := [some [0x50000000]],
    free_arrays := [], input := [], stdin := [], output := [] }

/-- Heap well-formedness for the free list: every entry holds a non-zero
identifier whose slot is currently inactive, and no identifier repeats. -/
def FreeOK (m : Machine) : Prop :=
  (∀ p ∈ m.free_arrays, p.1 ≠ 0 ∧ m.arrays[p.1]? = some none) ∧
  (m.free_arrays.map Prod.fst).Nodup

/-- Machine invariant: the register file has width 8, and whenever array 0 is
still active the free list is well formed. -/
def MachInv (m : Machine) : Prop :=
  m.registers.length = 8 ∧ ((∃ a, m.arrays[0]? = some (some a)) → FreeOK m)

def mW3 : Machine :=
  { pc := 0, registers := List.replicate 8 0, arrays := [some [0x80000008]],
    free_arrays := [], input := [], stdin := [], output := [] }

def mW3next : Machine :=
  { pc := 1, registers := [0, 1, 0, 0, 0, 0, 0, 0], arrays := [some [0x80000008], some []],
    free_arrays := [], input := [], stdin := [], output := [] }

/-- A successful fetch exposes an active array and an in-range offset. -/
theorem read_value_ok (m : Machine) (x y v : Nat) (h : read_value m x y = .ok v) :
    ∃ a, m.arrays[x]? = some (some a) ∧ a[y]? = some v := by
  unfold read_value at h
  split at h
  · rename_i a ha
    split at h
    · rename_i w hw
      obtain rfl : w = v := by simpa using h
      exact ⟨a, ha, hw⟩
    · exact absurd h (by simp)
  · exact absurd h (by simp)

/-- Every error produced by read_value carries the current pc. -/
theorem read_value_error_pc (m : Machine) (x y : Nat) (e : Error)
    (h : read_value m x y = .error e) : errorPC e = some m.pc := by
  unfold read_value at h
  split at h
  · split at h
    · exact absurd h (by simp)
    · cases h; rfl
  · cases h; rfl

/-- Every error produced by write_value carries the current pc. -/
theorem write_value_error_pc (m : Machine) (x y v : Nat) (e : Error)
    (h : write_value m x y v = .error e) : errorPC e = some m.pc := by
  unfold write_value at h
  split at h
  · split at h
    · exact absurd h (by simp)
    · cases h; rfl
  · cases h; rfl

/-- Resizing and then zero-filling recycled storage yields exactly a zero
array of the requested capacity. -/
theorem vecFill_vecResize (v : List Nat) (cap : Nat) :
    vecFill (vecResize v cap) = List.replicate cap 0 := by
  unfold vecFill vecResize
  have h : (v.take cap ++ List.replicate (cap - v.length) 0).length = cap := by
    simp [List.length_take]; omega
  rw [h]

/-- C1: opcode 11 with the pre-seeded queue empty and the external source at
end of input does not set the register to 0xFFFFFFFF; the read_exact call
fails and run aborts with the pc-less IO error. This evaluates the code at the
failing input of the claim. -/
theorem C1_eof_io_error :
    step mC1 = .fail (.err (.IOFailure .UnexpectedEof)) ∧
    run 1 mC1 = .fail (.err (.IOFailure .UnexpectedEof)) := by decide

/-- C2 counterexample: opcode 9 with R[c] = 0 does not fail; the step
succeeds and array 0 becomes inactive. -/
theorem C2_counterexample :
    step mC2 = .cont mC2after ∧ mC2after.arrays[0]? = some none := by decide

/-- C4 counterexample: opcode 12 with R[b] = 0 and R[c] = PC does not set the
pc; it fails with InfiniteLoop. -/
theorem C4_counterexample :
    step mC4 = .fail (.err (.InfiniteLoop 0)) := by decide

/-- C6 counterexample: run can return the IO error variant, which carries no
program counter. -/
theorem C6_counterexample :
    run 1 mC6 = .fail (.err (.IOFailure .UnexpectedEof)) ∧
    errorPC (.IOFailure .UnexpectedEof) = none := by decide

/-- C8 counterexample: a 1-byte input (length not a multiple of 4) does not
produce a final word; the conversion of the short group panics (slice index
out of range), so extend_from aborts. -/
theorem C8_counterexample :
    extend_from mC8 [1] = .error .panicFail := rfl

/-- C2 (amended): opcode 9 with R[c] = 0 succeeds at that instruction, making
array 0 inactive and pushing its storage on the free list; the next
instruction fetch then fails with InactiveArray for array 0. -/
theorem C2_abandon_zero (m mNext : Machine) (inst : Nat) (a0 : List Nat)
    (hfetch : read_value m 0 m.pc = .ok inst) (hop : inst >>> 28 = 9)
    (hc : read_reg m (inst % 8) = 0)
    (h0 : m.arrays[0]? = some (some a0))
    (hmn : mNext = incPC { m with arrays := m.arrays.set 0 none, free_arrays := (0, a0) :: m.free_arrays }) :
    step m = .cont mNext ∧
    mNext.arrays[0]? = some none ∧
    step mNext = .fail (.err (.InactiveArray mNext.pc 0)) := by
  have hlen : 0 < m.arrays.length := by
    by_contra hcon
    simp [List.getElem?_eq_none, Nat.le_of_not_lt hcon] at h0
  have h0n : mNext.arrays[0]? = some none := by
    subst hmn
    simp [incPC, List.getElem?_set_eq_of_lt, hlen]
  refine ⟨?_, h0n, ?_⟩
  · subst hmn
    simp [step, hfetch, hop, hc, h0]
  · simp [step, read_value, h0n]

/-- C2 witness: the amended theorem applied to a machine whose program is the
single platter for opcode 9 with all registers zero. -/
theorem C2_witness :
    step mC2 = .cont mC2next ∧
    mC2next.arrays[0]? = some none ∧
    step mC2next = .fail (.err (.InactiveArray mC2next.pc 0)) :=
  C2_abandon_zero mC2 mC2next 0x90000000 [0x90000000] rfl rfl rfl rfl (by decide)

/-- C4 (amended): opcode 12 with R[b] = 0 and R[c] different from the current
pc sets pc to R[c] and leaves the whole machine state otherwise unchanged, so
array 0 stays bit-identical with no copy; when R[c] equals the current pc the
defensive check fails with InfiniteLoop instead (see the counterexample). -/
theorem C4_load_self_no_copy (m : Machine) (inst : Nat)
    (hfetch : read_value m 0 m.pc = .ok inst) (hop : inst >>> 28 = 12)
    (hb : read_reg m ((inst >>> 3) % 8) = 0)
    (hc : read_reg m (inst % 8) ≠ m.pc) :
    step m = .cont { m with pc := read_reg m (inst % 8) } := by
  simp [step, hfetch, hop, hb, hc]

/-- C4 witness: the amended theorem applied to a machine executing opcode 12
with R[b] = 0 and R[c] = 3. -/
theorem C4_witness :
    step mW4 = .cont { mW4 with pc := read_reg mW4 1 } :=
  C4_load_self_no_copy mW4 0xC0000001 rfl rfl rfl (by decide)

/-- C5: opcode 12 with R[b] = k for an active identifier k not equal to 0
replaces the contents of array 0 with a copy of the contents of array k, sets
pc to R[c], and leaves array k active with its contents unmodified. -/
theorem C5_load_program_copy (m : Machine) (inst k : Nat) (arr : List Nat)
    (hfetch : read_value m 0 m.pc = .ok inst) (hop : inst >>> 28 = 12)
    (hb : read_reg m ((inst >>> 3) % 8) = k) (hk : k ≠ 0)
    (ha : m.arrays[k]? = some (some arr)) :
    step m = .cont { m with arrays := m.arrays.set 0 (some arr), pc := read_reg m (inst % 8) } ∧
    (m.arrays.set 0 (some arr))[k]? = some (some arr) := by
  have hlen : 0 < m.arrays.length := by
    obtain ⟨a, h0, -⟩ := read_value_ok m 0 m.pc inst hfetch
    by_contra hcon
    simp [List.getElem?_eq_none, Nat.le_of_not_lt hcon] at h0
  constructor
  · simp [step, hfetch, hop, hb, hk, ha, hlen]
  · rw [List.getElem?_set_ne (by omega)]
    exact ha

/-- C5 witness: the theorem applied to a machine loading program from active
array 1 with target pc 5. -/
theorem C5_witness :
    step mW5 = .cont { mW5 with arrays := mW5.arrays.set 0 (some [7, 8]), pc := read_reg mW5 2 } ∧
    (mW5.arrays.set 0 (some [7, 8]))[1]? = some (some [7, 8]) :=
  C5_load_program_copy mW5 0xC000000A 1 [7, 8] rfl rfl rfl (by decide) rfl

/-- C7: after any successful execution of opcode 8 with capacity R[c] — fresh
identifier or recycled from the free list, whatever the previous capacity of
the recycled storage — reading the returned identifier at every offset below
the capacity yields 0. -/
theorem C7_alloc_zero_fill (m m2 : Machine) (inst : Nat)
    (hreg : m.registers.length = 8)
    (hfetch : read_value m 0 m.pc = .ok inst) (hop : inst >>> 28 = 8)
    (hstep : step m = .cont m2) :
    ∀ off, off < read_reg m (inst % 8) →
      read_value m2 (read_reg m2 ((inst >>> 3) % 8)) off = .ok 0 := by
  intro off hoff
  have hbf : (inst >>> 3) % 8 < m.registers.length := by
    rw [hreg]; exact Nat.mod_lt _ (by omega)
  simp [step, hfetch, hop] at hstep
  split at hstep
  · rename_i idx mem rest hfree
    split at hstep
    · rename_i hidx
      simp only [StepResult.cont.injEq] at hstep
      subst hstep
      have hrd : read_reg (incPC (write_reg { m with arrays := m.arrays.set idx (some (vecFill (vecResize mem (read_reg m (inst % 8))))), free_arrays := rest } ((inst >>> 3) % 8) idx)) ((inst >>> 3) % 8) = idx := by
        simp [read_reg, write_reg, incPC, List.getD_eq_getElem?_getD,
          List.getElem?_set_eq_of_lt, hbf]
      rw [hrd]
      simp [read_value, incPC, write_reg, vecFill_vecResize,
        List.getElem?_set_eq_of_lt, hidx, List.getElem?_replicate, hoff]
    · exact absurd hstep (by simp)
  · rename_i hfree
    simp only [StepResult.cont.injEq] at hstep
    subst hstep
    have hrd : read_reg (incPC (write_reg { m with arrays := m.arrays ++ [some (List.replicate (read_reg m (inst % 8)) 0)] } ((inst >>> 3) % 8) m.arrays.length)) ((inst >>> 3) % 8) = m.arrays.length := by
      simp [read_reg, write_reg, incPC, List.getD_eq_getElem?_getD,
        List.getElem?_set_eq_of_lt, hbf]
    rw [hrd]
    simp [read_value, incPC, write_reg, List.getElem?_concat_length,
      List.getElem?_replicate, hoff]

/-- C7 witness: the theorem applied to an allocation of capacity 2 that
recycles identifier 1, whose previous storage held three non-zero words. -/
theorem C7_witness :
    read_value mW7next (read_reg mW7next 1) 0 = .ok 0 ∧
    read_value mW7next (read_reg mW7next 1) 1 = .ok 0 :=
  ⟨C7_alloc_zero_fill mW7 mW7next 0x80000008 rfl rfl rfl (by decide) 0 (by decide),
   C7_alloc_zero_fill mW7 mW7next 0x80000008 rfl rfl rfl (by decide) 1 (by decide)⟩

/-- C10: for an identifier with no heap slot (never returned by an allocation,
larger than every index of the arrays vector), read, write, and abandon all
fail with InactiveArray carrying that identifier, never OutOfBounds. -/
theorem C10_unallocated_inactive (m : Machine) (id off v : Nat)
    (hlen : m.arrays.length ≤ id) :
    read_value m id off = .error (.InactiveArray m.pc id) ∧
    write_value m id off v = .error (.InactiveArray m.pc id) ∧
    (∀ inst, read_value m 0 m.pc = .ok inst → inst >>> 28 = 9 →
      read_reg m (inst % 8) = id → step m = .fail (.err (.InactiveArray m.pc id))) := by
  have hnone : m.arrays[id]? = none := by simp [List.getElem?_eq_none, hlen]
  refine ⟨?_, ?_, ?_⟩
  · simp [read_value, hnone]
  · simp [write_value, hnone]
  · intro inst hfetch hop hc
    simp [step, hfetch, hop, hc, hnone]

/-- C10 witness: the theorem applied to identifier 5 on a machine whose heap
has a single slot, executing opcode 9 with R[c] = 5. -/
theorem C10_witness :
    read_value mW10 5 0 = .error (.InactiveArray mW10.pc 5) ∧
    write_value mW10 5 0 3 = .error (.InactiveArray mW10.pc 5) ∧
    step mW10 = .fail (.err (.InactiveArray mW10.pc 5)) := by
  obtain ⟨h1, h2, h3⟩ := C10_unallocated_inactive mW10 5 0 3 (by decide)
  exact ⟨h1, h2, h3 0x90000007 rfl rfl rfl⟩

/-- Converting the chunks of a byte list whose length is not a multiple of 4
panics on the short final group. The fuel n bounds the list length for the
induction. -/
theorem collectWords_short (n : Nat) : ∀ bytes : List Nat, bytes.length ≤ n →
    bytes.length % 4 ≠ 0 → collectWords (chunks4 bytes) = none := by
  induction n with
  | zero =>
    intro bytes hle h4
    have h0 : bytes.length = 0 := by omega
    rw [h0] at h4
    simp at h4
  | succ n ih =>
    intro bytes hle h4
    rcases bytes with _ | ⟨a, _ | ⟨b, _ | ⟨c, _ | ⟨d, rest⟩⟩⟩⟩
    · simp at h4
    · simp [chunks4, collectWords, fromBeBytes]
    · simp [chunks4, collectWords, fromBeBytes]
    · simp [chunks4, collectWords, fromBeBytes]
    · have hr : rest.length % 4 ≠ 0 := by
        simp only [List.length_cons] at h4
        omega
      have hrl : rest.length ≤ n := by
        simp only [List.length_cons] at hle
        omega
      simp [chunks4, collectWords, fromBeBytes, ih rest hrl hr]

/-- Converting the chunks of a byte list whose length is 4 * n succeeds and
yields, at index j, the big-endian word of bytes 4j .. 4j+3. -/
theorem collectWords_mult4 (n : Nat) : ∀ bytes : List Nat, bytes.length = 4 * n →
    ∃ ws, collectWords (chunks4 bytes) = some ws ∧ ws.length = n ∧
      ∀ j, j < n → ws[j]? = some (bytes.getD (4 * j) 0 * 2 ^ 24 + bytes.getD (4 * j + 1) 0 * 2 ^ 16 + bytes.getD (4 * j + 2) 0 * 2 ^ 8 + bytes.getD (4 * j + 3) 0) := by
  induction n with
  | zero =>
    intro bytes hlen
    have : bytes = [] := List.eq_nil_of_length_eq_zero (by omega)
    subst this
    exact ⟨[], rfl, rfl, by omega⟩
  | succ n ih =>
    intro bytes hlen
    rcases bytes with _ | ⟨a, _ | ⟨b, _ | ⟨c, _ | ⟨d, rest⟩⟩⟩⟩ <;>
      simp only [List.length_nil, List.length_cons] at hlen <;> try omega
    have hrl : rest.length = 4 * n := by omega
    obtain ⟨ws, h1, h2, h3⟩ := ih rest hrl
    refine ⟨(a * 2 ^ 24 + b * 2 ^ 16 + c * 2 ^ 8 + d) :: ws, ?_, by simp [h2], ?_⟩
    · simp [chunks4, collectWords, fromBeBytes, h1]
    · intro j hj
      cases j with
      | zero => simp
      | succ jj =>
        have e0 : (a :: b :: c :: d :: rest).getD (4 * (jj + 1)) 0 = rest.getD (4 * jj) 0 := by
          have e : 4 * (jj + 1) = 4 * jj + 4 := by ring
          rw [e]; rfl
        have e1 : (a :: b :: c :: d :: rest).getD (4 * (jj + 1) + 1) 0 = rest.getD (4 * jj + 1) 0 := by
          have e : 4 * (jj + 1) + 1 = (4 * jj + 1) + 4 := by ring
          rw [e]; rfl
        have e2 : (a :: b :: c :: d :: rest).getD (4 * (jj + 1) + 2) 0 = rest.getD (4 * jj + 2) 0 := by
          have e : 4 * (jj + 1) + 2 = (4 * jj + 2) + 4 := by ring
          rw [e]; rfl
        have e3 : (a :: b :: c :: d :: rest).getD (4 * (jj + 1) + 3) 0 = rest.getD (4 * jj + 3) 0 := by
          have e : 4 * (jj + 1) + 3 = (4 * jj + 3) + 4 := by ring
          rw [e]; rfl
        rw [e0, e1, e2, e3]
        simpa using h3 jj (by omega)

/-- C8 (amended): when the input byte length is not a multiple of 4, the
conversion of the short final group does not complete; the slice indexing
panics, so extend_from produces no final word and aborts. -/
theorem C8_short_tail_panics (m : Machine) (bytes : List Nat)
    (h4 : bytes.length % 4 ≠ 0) :
    extend_from m bytes = .error .panicFail := by
  have h := collectWords_short bytes.length bytes le_rfl h4
  simp [extend_from, h]

/-- C8 witness: the amended theorem applied to a 5-byte input. -/
theorem C8_witness :
    extend_from mC8 [1, 2, 3, 4, 5] = .error .panicFail :=
  C8_short_tail_panics mC8 [1, 2, 3, 4, 5] (by decide)

/-- C9: for input whose length is a multiple of 4, extend_from appends to
array 0 one word per consecutive group of 4 bytes, assembled big-endian, in
group order; the append form makes successive calls concatenate in call
order. -/
theorem C9_extend_from_be (m : Machine) (bytes a0 : List Nat)
    (h4 : bytes.length % 4 = 0) (h0 : m.arrays[0]? = some (some a0)) :
    extend_from m bytes = .ok { m with arrays := m.arrays.set 0 (some (a0 ++ loadedWords bytes)) } ∧
    (loadedWords bytes).length = bytes.length / 4 ∧
    ∀ j, j < bytes.length / 4 →
      (loadedWords bytes)[j]? = some (bytes.getD (4 * j) 0 * 2 ^ 24 + bytes.getD (4 * j + 1) 0 * 2 ^ 16 + bytes.getD (4 * j + 2) 0 * 2 ^ 8 + bytes.getD (4 * j + 3) 0) := by
  obtain ⟨ws, h1, h2, h3⟩ := collectWords_mult4 (bytes.length / 4) bytes (by omega)
  have hws : loadedWords bytes = ws := by simp [loadedWords, h1]
  refine ⟨?_, by rw [hws]; exact h2, ?_⟩
  · simp [extend_from, h1, h0, hws]
  · intro j hj
    rw [hws]
    exact h3 j hj

/-- C9 witness: the theorem applied to the 8-byte image 01 02 03 04 05 06 07
08, loaded after an existing word, yielding the two big-endian words. -/
theorem C9_witness :
    extend_from mW9 [1, 2, 3, 4, 5, 6, 7, 8] = .ok { mW9 with arrays := mW9.arrays.set 0 (some ([99] ++ loadedWords [1, 2, 3, 4, 5, 6, 7, 8])) } ∧
    (loadedWords [1, 2, 3, 4, 5, 6, 7, 8]).length = 2 ∧
    (loadedWords [1, 2, 3, 4, 5, 6, 7, 8])[0]? = some 16909060 ∧
    (loadedWords [1, 2, 3, 4, 5, 6, 7, 8])[1]? = some 84281096 := by
  obtain ⟨h1, h2, h3⟩ := C9_extend_from_be mW9 [1, 2, 3, 4, 5, 6, 7, 8] [99] (by decide) rfl
  exact ⟨h1, h2, h3 0 (by decide), h3 1 (by decide)⟩

/-- Errors from read_value always carry a pc. -/
theorem read_value_isSome {m : Machine} {x y : Nat} {e : Error}
    (h : read_value m x y = .error e) : (errorPC e).isSome = true := by
  rw [read_value_error_pc m x y e h]; rfl

/-- Errors from write_value always carry a pc. -/
theorem write_value_isSome {m : Machine} {x y v : Nat} {e : Error}
    (h : write_value m x y v = .error e) : (errorPC e).isSome = true := by
  rw [write_value_error_pc m x y v e h]; rfl

/-- Every error a single dispatch step can produce carries the pc, except the
IO error raised when read_exact hits end of input. -/
theorem step_fail_pc (m : Machine) (e : Error) (h : step m = .fail (.err e)) :
    (errorPC e).isSome = true ∨ e = .IOFailure .UnexpectedEof := by
  cases hfetch : read_value m 0 m.pc with
  | error e0 =>
    simp only [step, hfetch] at h
    cases h
    exact Or.inl (read_value_isSome hfetch)
  | ok inst =>
    simp only [step, hfetch] at h
    repeat' split at h
    all_goals cases h
    all_goals first
      | exact Or.inr rfl
      | (apply Or.inl
         first
         | rfl
         | (apply read_value_isSome; assumption)
         | (apply write_value_isSome; assumption))

/-- C6 (amended): every error value returned by run carries the program
counter at which it was detected, except the IO variant, which holds only the
underlying stream error and no pc. -/
theorem C6_errors_carry_pc (fuel : Nat) (m : Machine) (e : Error)
    (h : run fuel m = .fail (.err e)) :
    (errorPC e).isSome = true ∨ e = .IOFailure .UnexpectedEof := by
  induction fuel generalizing m with
  | zero => exact absurd h (by simp [run])
  | succ n ih =>
    unfold run at h
    split at h
    · exact ih _ h
    · exact absurd h (by simp)
    · rename_i f hs
      simp only [RunResult.fail.injEq] at h
      subst h
      exact step_fail_pc m e hs

/-- C6 witness: the amended theorem applied to a run that fails with division
by zero at pc 0. -/
theorem C6_witness :
    (errorPC (.DivisionByZero 0)).isSome = true ∨
    Error.DivisionByZero 0 = .IOFailure .UnexpectedEof :=
  C6_errors_carry_pc 1 mW6 (.DivisionByZero 0) rfl

/-- Bound extraction from a successful list lookup. -/
theorem lt_of_getElem?_some {α : Type} {l : List α} {i : Nat} {x : α}
    (h : l[i]? = some x) : i < l.length := by
  by_contra hc
  rw [List.getElem?_eq_none (by omega)] at h
  cases h

/-- The invariant only depends on registers, arrays and the free list. -/
theorem MachInv_frame {m m2 : Machine} (hInv : MachInv m)
    (hr : m2.registers.length = m.registers.length)
    (ha : m2.arrays = m.arrays) (hf : m2.free_arrays = m.free_arrays) : MachInv m2 := by
  obtain ⟨h1, h2⟩ := hInv
  refine ⟨by rw [hr, h1], fun hx => ?_⟩
  have hm := h2 (by rwa [ha] at hx)
  unfold FreeOK at hm ⊢
  rw [ha, hf]
  exact hm

/-- Every successful dispatch step preserves the machine invariant. -/
theorem step_cont_MachInv (m m2 : Machine) (hInv : MachInv m)
    (h : step m = .cont m2) : MachInv m2 := by
  obtain ⟨hreg, hfo⟩ := hInv
  cases hfetch : read_value m 0 m.pc with
  | error e0 =>
    simp only [step, hfetch] at h
    cases h
  | ok inst =>
    obtain ⟨prog, hprog, -⟩ := read_value_ok m 0 m.pc inst hfetch
    have hfree : FreeOK m := hfo ⟨prog, hprog⟩
    have hlen0 : 0 < m.arrays.length := lt_of_getElem?_some hprog
    simp only [step, hfetch] at h
    obtain ⟨k, hk⟩ : ∃ k, inst >>> 28 = k := ⟨_, rfl⟩
    rw [hk] at h
    by_cases hk14 : k < 14
    · interval_cases k
      all_goals simp at h
      -- op 0
      · cases h
        exact MachInv_frame ⟨hreg, hfo⟩ (by simp [incPC, write_reg]) rfl rfl
      -- op 1
      · split at h
        · cases h
          exact MachInv_frame ⟨hreg, hfo⟩ (by simp [incPC, write_reg]) rfl rfl
        · cases h
      -- op 2
      · split at h
        · rename_i mw heqw
          cases h
          unfold write_value at heqw
          split at heqw
          · rename_i arr harr
            split at heqw
            · cases heqw
              refine ⟨by simp [incPC, hreg], fun hx => ?_⟩
              refine ⟨fun p hp => ?_, by simpa [incPC] using hfree.2⟩
              simp only [incPC] at hp
              obtain ⟨hp1, hp2⟩ := hfree.1 p hp
              refine ⟨hp1, ?_⟩
              have hne : read_reg m (inst >>> 6 % 8) ≠ p.1 := by
                intro hcon
                rw [hcon] at harr
                rw [harr] at hp2
                cases hp2
              simp only [incPC]
              rw [List.getElem?_set_ne hne]
              exact hp2
            · cases heqw
          · cases heqw
        · cases h
      -- op 3
      · cases h
        exact MachInv_frame ⟨hreg, hfo⟩ (by simp [incPC, write_reg]) rfl rfl
      -- op 4
      · cases h
        exact MachInv_frame ⟨hreg, hfo⟩ (by simp [incPC, write_reg]) rfl rfl
      -- op 5
      · split at h
        · cases h
        · cases h
          exact MachInv_frame ⟨hreg, hfo⟩ (by simp [incPC, write_reg]) rfl rfl
      -- op 6
      · cases h
        exact MachInv_frame ⟨hreg, hfo⟩ (by simp [incPC, write_reg]) rfl rfl
      -- op 8
      · split at h
        · rename_i idx mem rest heqf
          split at h
          · rename_i hidx
            cases h
            have hhead := hfree.1 (idx, mem) (by rw [heqf]; exact List.mem_cons_self _ _)
            have hnodup := hfree.2
            rw [heqf] at hnodup
            simp only [List.map_cons, List.nodup_cons] at hnodup
            refine ⟨by simp [incPC, write_reg, hreg], fun hx => ?_⟩
            constructor
            · intro p hp
              simp only [incPC, write_reg] at hp
              have hpm : p ∈ m.free_arrays := by rw [heqf]; exact List.mem_cons_of_mem _ hp
              obtain ⟨hp1, hp2⟩ := hfree.1 p hpm
              refine ⟨hp1, ?_⟩
              have hne : idx ≠ p.1 := by
                intro hcon
                exact hnodup.1 (hcon ▸ List.mem_map_of_mem Prod.fst hp)
              simp only [incPC, write_reg]
              rw [List.getElem?_set_ne hne]
              exact hp2
            · simpa [incPC, write_reg] using hnodup.2
          · cases h
        · rename_i heqf
          cases h
          refine ⟨by simp [incPC, write_reg, hreg], fun hx => ?_⟩
          constructor
          · intro p hp
            simp only [incPC, write_reg, heqf] at hp
            cases hp
          · simp [incPC, write_reg, heqf]
      -- op 9
      · split at h
        · rename_i mem heqa
          cases h
          refine ⟨by simp [incPC, hreg], fun hx => ?_⟩
          obtain ⟨a2, ha2⟩ := hx
          have htlt : read_reg m (inst % 8) < m.arrays.length := lt_of_getElem?_some heqa
          have ht0 : read_reg m (inst % 8) ≠ 0 := by
            intro hcon
            simp only [incPC, hcon] at ha2
            rw [List.getElem?_set_eq_of_lt _ hlen0] at ha2
            cases ha2
          have hnotin : ∀ p ∈ m.free_arrays, p.1 ≠ read_reg m (inst % 8) := by
            intro p hp hcon
            have hcc := (hfree.1 p hp).2
            rw [hcon, heqa] at hcc
            cases hcc
          constructor
          · intro p hp
            simp only [incPC] at hp
            rcases List.mem_cons.mp hp with hph | hpt
            · subst hph
              refine ⟨ht0, ?_⟩
              simp only [incPC]
              rw [List.getElem?_set_eq_of_lt _ htlt]
            · obtain ⟨hp1, hp2⟩ := hfree.1 p hpt
              refine ⟨hp1, ?_⟩
              simp only [incPC]
              rw [List.getElem?_set_ne (fun hcon => hnotin p hpt hcon.symm)]
              exact hp2
          · simp only [incPC, List.map_cons, List.nodup_cons]
            refine ⟨fun hcon => ?_, hfree.2⟩
            obtain ⟨p, hp, hpeq⟩ := List.mem_map.mp hcon
            exact hnotin p hp hpeq
        · cases h
      -- op 10
      · split at h
        · cases h
        · cases h
          exact MachInv_frame ⟨hreg, hfo⟩ (by simp [incPC]) rfl rfl
      -- op 11
      · split at h
        · cases h
          exact MachInv_frame ⟨hreg, hfo⟩ (by simp [incPC, write_reg]) rfl rfl
        · split at h
          · cases h
          · cases h
            exact MachInv_frame ⟨hreg, hfo⟩ (by simp [incPC, write_reg]) rfl rfl
      -- op 12
      · split at h
        · cases h
        · split at h
          · cases h
            exact MachInv_frame ⟨hreg, hfo⟩ rfl rfl rfl
          · split at h
            · rename_i a2 heqa
              cases h
              refine ⟨hreg, fun hx => ?_⟩
              refine ⟨fun p hp => ?_, hfree.2⟩
              obtain ⟨hp1, hp2⟩ := hfree.1 p hp
              refine ⟨hp1, ?_⟩
              have hgoal : (m.arrays.set 0 (some a2))[p.1]? = some none := by
                rw [List.getElem?_set_ne (fun hcon => hp1 hcon.symm)]
                exact hp2
              exact hgoal
            · cases h
      -- op 13
      · cases h
        exact MachInv_frame ⟨hreg, hfo⟩ (by simp [incPC, write_reg]) rfl rfl
    · obtain ⟨j, hj⟩ : ∃ j, k = j + 14 := ⟨k - 14, by omega⟩
      rw [hj] at h
      simp at h

/-- Every reachable machine state satisfies the invariant. -/
theorem Reachable_MachInv (m : Machine) (hr : Reachable m) : MachInv m := by
  induction hr with
  | start prog inp ins =>
    refine ⟨by simp, fun hx => ?_⟩
    exact ⟨fun p hp => absurd hp (by simp), by simp⟩
  | next m1 m2 hr hs ih => exact step_cont_MachInv m1 m2 ih hs

/-- C3: every successful execution of opcode 8 on a reachable state places a
non-zero identifier in R[b]; at that moment the identifier identified no
active array, and afterwards it identifies exactly the new allocation. -/
theorem C3_alloc_fresh_id (m m2 : Machine) (inst : Nat)
    (hreach : Reachable m)
    (hfetch : read_value m 0 m.pc = .ok inst) (hop : inst >>> 28 = 8)
    (hstep : step m = .cont m2) :
    read_reg m2 ((inst >>> 3) % 8) ≠ 0 ∧
    activeAt m (read_reg m2 ((inst >>> 3) % 8)) = false ∧
    activeAt m2 (read_reg m2 ((inst >>> 3) % 8)) = true := by
  obtain ⟨hreg, hfo⟩ := Reachable_MachInv m hreach
  obtain ⟨prog, hprog, -⟩ := read_value_ok m 0 m.pc inst hfetch
  have hfree : FreeOK m := hfo ⟨prog, hprog⟩
  have hlen0 : 0 < m.arrays.length := lt_of_getElem?_some hprog
  have hbf : (inst >>> 3) % 8 < m.registers.length := by
    rw [hreg]; exact Nat.mod_lt _ (by omega)
  simp [step, hfetch, hop] at hstep
  split at hstep
  · rename_i idx mem rest heqf
    split at hstep
    · rename_i hidx
      cases hstep
      have hhead := hfree.1 (idx, mem) (by rw [heqf]; exact List.mem_cons_self _ _)
      have hrd : read_reg (incPC (write_reg { m with arrays := m.arrays.set idx (some (vecFill (vecResize mem (read_reg m (inst % 8))))), free_arrays := rest } ((inst >>> 3) % 8) idx)) ((inst >>> 3) % 8) = idx := by
        simp [read_reg, write_reg, incPC, List.getD_eq_getElem?_getD,
          List.getElem?_set_eq_of_lt, hbf]
      rw [hrd]
      refine ⟨hhead.1, ?_, ?_⟩
      · simp [activeAt, hhead.2]
      · simp [activeAt, incPC, write_reg, List.getElem?_set_eq_of_lt, hidx]
    · exact absurd hstep (by simp)
  · rename_i heqf
    cases hstep
    have hrd : read_reg (incPC (write_reg { m with arrays := m.arrays ++ [some (List.replicate (read_reg m (inst % 8)) 0)] } ((inst >>> 3) % 8) m.arrays.length)) ((inst >>> 3) % 8) = m.arrays.length := by
      simp [read_reg, write_reg, incPC, List.getD_eq_getElem?_getD,
        List.getElem?_set_eq_of_lt, hbf]
    rw [hrd]
    refine ⟨by omega, ?_, ?_⟩
    · simp [activeAt, List.getElem?_eq_none (le_refl m.arrays.length)]
    · simp [activeAt, incPC, write_reg, List.getElem?_concat_length]

/-- C3 witness: the theorem applied to the initial machine whose program is a
single opcode-8 platter with b = 1 and capacity R[0] = 0. -/
theorem C3_witness :
    read_reg mW3next 1 ≠ 0 ∧
    activeAt mW3 (read_reg mW3next 1) = false ∧
    activeAt mW3next (read_reg mW3next 1) = true :=
  C3_alloc_fresh_id mW3 mW3next 0x80000008 (Reachable.start [0x80000008] [] [])
    rfl rfl (by decide)
